/-
  Verification of the memfo sample store (TimeMemory) and column selector
  (TimeSlicer) from src/memfo/TimeMemory.py, as a shallow embedding.

  Samples are Python dicts carrying a time key field and metric fields;
  we model them as a structure with the time key and one representative
  data field standing in for all metric fields.  Time keys fed by the
  caller (main.py) are non-negative integers, so they are Nat here.
-/
import Mathlib

set_option maxHeartbeats 4000000
set_option maxRecDepth 100000

/-- One stored sample: the reserved time key field and a representative
numeric payload standing for the remaining metric fields of the dict. -/
structure Info where
  mono : Nat
  data : Nat
deriving Repr, DecidableEq, Inhabited

/-- State of the sample store TimeMemory.  The source also carries a
back-reference to the application object and an unused prev field;
neither influences any behaviour, so they are omitted. -/
structure TimeMemory where
  infos : List Info
  info_secs : Nat
  comp_idx : Nat
  state : String
deriving Repr, DecidableEq

def MAX_INFOS : Nat := 600

def COMPRESSION_MULTIPLIERS : List Nat := [5, 3, 2, 2, 5, 3, 2, 2, 4, 3, 2, 2, 2, 2]

def RETENTION_SEC : Nat := 24 * 60 * 60

/-- Constructor: the store starts empty at the given quantum. -/
def TimeMemory.init (initial_sample_secs : Nat) : TimeMemory :=
  { infos := [], info_secs := initial_sample_secs, comp_idx := 0, state := "n/a" }

/-- History pruning loop, step 6 of append_info: while the list is longer
than MAX_INFOS, drop the oldest element if it is older than the cutoff,
else stop.  The source reads len() each iteration; we thread the current
length (n) alongside, and a fuel bounded by the initial length. -/
def pruneFuel : Nat → Int → Nat → List Info → List Info
  | 0, _, _, l => l
  | fu+1, cutoff, n, l =>
    if MAX_INFOS < n then
      match l.getLast? with
      | some z => if cutoff ≤ (z.mono : Int) then l
                  else pruneFuel fu cutoff (n - 1) l.dropLast
      | none => l
    else l

def pruneInfos (cutoff : Int) (l : List Info) : List Info :=
  pruneFuel l.length cutoff l.length l

/-- Step 7 of append_info: multiply the quantum by the current cyclic
multiplier, keep the newest element plus the older elements whose time
key is a multiple of the enlarged quantum, advance the stage index. -/
def compressStep (tm : TimeMemory) : TimeMemory :=
  let factor := COMPRESSION_MULTIPLIERS.getD (tm.comp_idx % COMPRESSION_MULTIPLIERS.length) 0
  let secs := tm.info_secs * factor
  { tm with
      info_secs := secs,
      infos := tm.infos.take 1 ++ (tm.infos.drop 1).filter (fun y => y.mono % secs == 0),
      comp_idx := tm.comp_idx + 1 }

/-- The gap-fill synthetic sample: a shallow copy of the incoming info
with only the time key replaced (source: get_fake_info). -/
def fakeInfo (info : Info) (m : Nat) : Info := { info with mono := m }

/-- TimeMemory.append_info, with fuel for the recursive gap-fill calls.
The hole loop runs exactly (info.mono - top.mono - 1) iterations, since
the loop condition only involves this_mono and the local top_mono which
advances by one per iteration; each iteration either bumps the time key
of slot 0 in place (when the next key is not a multiple of the current
quantum) or recursively appends a synthetic copy of the incoming info.
The recursive appends never have a gap of their own, so recursion depth
is two and any fuel of at least two suffices. -/
def appendInfoFuel : Nat → TimeMemory → Info → Bool → TimeMemory × Bool
  | 0, tm, _, _ => (tm, false)
  | fuel+1, tm, info, force =>
    match tm.infos with
    | [] => ({ tm with infos := [info], comp_idx := 0, state := "init" }, false)
    | top :: _rest =>
      if info.mono < top.mono then
        ({ tm with state := "in-past" }, false)
      else if info.mono = top.mono then
        ({ tm with infos := info :: tm.infos.tail, state := "reuse" }, false)
      else
        -- step 4: hole loop; gap-many iterations
        let gap := info.mono - (top.mono + 1)
        let hole := gap ≠ 0
        let step := fun (p : TimeMemory × Nat) =>
          let t := p.2 + 1
          if t % p.1.info_secs ≠ 0 then
            ({ p.1 with
                infos := (match p.1.infos with
                          | [] => []
                          | x :: xs => { x with mono := t } :: xs),
                state := "hole-" }, t)
          else
            ((appendInfoFuel fuel { p.1 with state := "hole-" } (fakeInfo info t) false).1, t)
        let p := (List.range gap).foldl (fun q _ => step q) (tm, top.mono)
        let tm1 := p.1
        let topM := p.2
        if topM % tm1.info_secs ≠ 0 then
          -- step 5a: overwrite situation
          ({ tm1 with infos := info :: tm1.infos.tail,
                      state := (if hole then "hole-reuse" else "reuse") }, false)
        else
          -- step 5b: insert situation
          let tm2 := { tm1 with infos := info :: tm1.infos,
                                state := (if hole then "hole-grow" else "grow") }
          let cutoff : Int := (info.mono : Int) - (RETENTION_SEC : Int)
          let tm3 := { tm2 with infos := pruneInfos cutoff tm2.infos }
          if MAX_INFOS < tm3.infos.length || force then
            (compressStep tm3, true)
          else
            (tm3, false)

/-- Public append: fuel info.mono + 2 dominates the recursion depth. -/
def append_info (tm : TimeMemory) (info : Info) (force : Bool) : TimeMemory × Bool :=
  appendInfoFuel (info.mono + 2) tm info force

/-- One iteration of the hole loop of append_info, naming the loop body
of appendInfoFuel for use in lemmas. -/
def holeStep (fuel : Nat) (info : Info) (p : TimeMemory × Nat) : TimeMemory × Nat :=
  let t := p.2 + 1
  if t % p.1.info_secs ≠ 0 then
    ({ p.1 with
        infos := (match p.1.infos with
                  | [] => []
                  | x :: xs => { x with mono := t } :: xs),
        state := "hole-" }, t)
  else
    ((appendInfoFuel fuel { p.1 with state := "hole-" } (fakeInfo info t) false).1, t)

/-- Run a whole script of appends (time key, payload, force flag). -/
def runScript (s : Nat) (script : List (Info × Bool)) : TimeMemory :=
  script.foldl (fun tm ib => (append_info tm ib.1 ib.2).1) (TimeMemory.init s)

/-- Run a list of plain appends (payload 0, no forced compression)
starting from the canonical store with quantum 1. -/
def runMonos (ms : List Nat) : TimeMemory :=
  ms.foldl (fun tm m => (append_info tm { mono := m, data := 0 } false).1) (TimeMemory.init 1)

/-- Dense run: n appends with consecutive time keys t0, t0+1, ... and
payloads given by d, from the empty store with quantum 1. -/
def runDense (t0 : Nat) (n : Nat) (d : Nat → Nat) : TimeMemory :=
  (List.range n).foldl
    (fun tm i => (append_info tm { mono := t0 + i, data := d i } false).1)
    (TimeMemory.init 1)

/-
  The column selector (TimeSlicer).  Python float arithmetic appears only
  in two places: the running interpolation position of get_var_slices and
  the round() calls; every such float is a ratio of two integers, so it
  is modelled exactly as a numerator-denominator pair, and round() is
  modelled with Python semantics (banker's rounding, half to even).
  Division or modulo by zero and list indexing outside the legal range
  raise in Python; those paths are modelled as none.
-/

/-- Python round(a / b) for a positive denominator b: nearest integer,
ties to the even neighbour.  Integer division and remainder of ℤ are
Euclidean, which for the positive denominators this function is applied
to coincide with Python floor division and modulo. -/
def pythonRound (a b : ℤ) : ℤ :=
  let f := a / b
  let r := a % b
  if 2 * r < b then f
  else if b < 2 * r then f + 1
  else if f % 2 = 0 then f else f + 1

/-- Python list subscript: non-negative indices from the front, negative
indices from the back, out of range raises (none). -/
def pyGet (l : List Info) (i : ℤ) : Option Info :=
  if 0 ≤ i then l.get? i.toNat
  else if (-i).toNat ≤ l.length then l.get? (l.length - (-i).toNat)
  else none

/-- TimeSlicer.get_var_slices.  The source keeps a running float position
(where += spread); over ℚ that running position at step cnt is exactly
cnt * spread, which is how it is written here.  A column budget of one
with a larger history divides by zero in the source (max_col_cnt-1); that
path returns none.  A budget of zero is harmless in the source (the
sampling loop runs zero times), and returns an empty list. -/
def get_var_slices (history : TimeMemory) (max_col_cnt : Nat) : Option (List Info) :=
  let infos := history.infos
  let total := infos.length
  if total ≤ max_col_cnt then
    some infos.reverse
  else if max_col_cnt = 1 then
    none
  else
    -- the running float position after cnt steps of where += spread is
    -- exactly cnt * (total-1) / (max_col_cnt-1)
    some ((List.range max_col_cnt).map
      (fun (cnt : Nat) => infos.getD
        (pythonRound ((cnt : ℤ) * ((total : ℤ) - 1)) ((max_col_cnt : ℤ) - 1)).toNat
        default)).reverse

/-- A column namespace of get_fixed_slices: a store index paired with the
time key it was resolved against. -/
structure ColNS where
  idx : ℤ
  mono : ℤ
deriving Repr, DecidableEq

/-- The selector state persisted across get_fixed_slices calls: the
pinned rightmost column, if any, and the queued pan commands. -/
structure SlicerState where
  tack : Option ColNS
  horizontal_moves : List Char
deriving Repr, DecidableEq

/-- The range data of get_fixed_slices.get_range_ns. -/
structure RangeNS where
  right_upper : ColNS
  idx_step_by : ℤ
  count : ℤ
  right_lower : ColNS
deriving Repr, DecidableEq

/-- get_fixed_slices.get_right_col: the newest historical column slot,
aligned down to a multiple of the report interval.  Only called with at
least two stored samples; interval_secs is positive in every caller
(the report_intervals table), and zero would raise, hence none. -/
def get_right_col (history : TimeMemory) (interval_secs : ℤ) : Option ColNS :=
  if interval_secs ≤ 0 then none
  else
    match history.infos.get? 1 with
    | none => none
    | some s1 =>
      let last_mono : ℤ := s1.mono
      let m := last_mono - last_mono % interval_secs
      some { mono := m, idx := 1 + (last_mono - m) / (history.info_secs : ℤ) }

/-- get_fixed_slices.get_range_ns: legal anchor range, newest (upper) to
oldest (lower).  A zero idx_step_by divides by zero in the source. -/
def get_range_ns (history : TimeMemory) (interval_secs : ℤ) (max_col_cnt : Nat) :
    Option RangeNS :=
  match get_right_col history interval_secs with
  | none => none
  | some ru =>
    let info_secs : ℤ := history.info_secs
    let step := interval_secs / info_secs
    if step = 0 then none
    else
      let count := ((history.infos.length : ℤ) - ru.idx) / step
      let delta_idx := (max (1 + count - ((max_col_cnt : ℤ) - 1)) 0) * step
      some { right_upper := ru, idx_step_by := step, count := count,
             right_lower := { idx := ru.idx + delta_idx,
                              mono := ru.mono - delta_idx * info_secs } }

/-- get_fixed_slices.legal_tack: clamp a tack into the legal range,
re-resolving a middle position by time key against the current store. -/
def legal_tack (history : TimeMemory) (interval_secs : ℤ) (tack : ColNS)
    (range_ns : RangeNS) : Option ColNS :=
  if range_ns.right_upper.mono ≤ tack.mono then some range_ns.right_upper
  else if tack.mono ≤ range_ns.right_lower.mono then some range_ns.right_lower
  else
    let rpt_idx := pythonRound (tack.mono - range_ns.right_lower.mono) interval_secs
    let info_idx := range_ns.right_lower.idx - rpt_idx * range_ns.idx_step_by
    match pyGet history.infos info_idx with
    | none => none
    | some s => some { idx := info_idx, mono := (s.mono : ℤ) }

/-- One pan command of get_fixed_slices.apply_pending_moves.  A character
outside the six commands falls through the elif chain, leaving the tack
unchanged. -/
def applyMove (history : TimeMemory) (interval_secs : ℤ) (range_ns : RangeNS)
    (tack : ColNS) (move : Char) : Option ColNS :=
  if move = '[' then some range_ns.right_lower
  else if move = ']' then some range_ns.right_upper
  else if move = '<' then
    legal_tack history interval_secs
      { idx := tack.idx + range_ns.idx_step_by, mono := tack.mono - interval_secs } range_ns
  else if move = '>' then
    legal_tack history interval_secs
      { idx := tack.idx - range_ns.idx_step_by, mono := tack.mono + interval_secs } range_ns
  else if move = '{' then
    let delta := max 1 ((pythonRound (history.infos.length : ℤ) 8) / range_ns.idx_step_by)
    legal_tack history interval_secs
      { idx := tack.idx + delta * range_ns.idx_step_by,
        mono := tack.mono - delta * interval_secs } range_ns
  else if move = '}' then
    let delta := max 1 ((pythonRound (history.infos.length : ℤ) 8) / range_ns.idx_step_by)
    legal_tack history interval_secs
      { idx := tack.idx - delta * range_ns.idx_step_by,
        mono := tack.mono + delta * interval_secs } range_ns
  else some tack

/-- get_fixed_slices.apply_pending_moves: resolve the pinned tack (or
fall back to the rightmost column), then consume the queued commands. -/
def apply_pending_moves (history : TimeMemory) (interval_secs : ℤ) (range_ns : RangeNS)
    (sl : SlicerState) : Option ColNS :=
  let start : Option ColNS :=
    match sl.tack with
    | none => some range_ns.right_upper
    | some t => legal_tack history interval_secs t range_ns
  match start with
  | none => none
  | some t0 => sl.horizontal_moves.foldlM (applyMove history interval_secs range_ns) t0

/-- The historical-column collection loop of get_fixed_slices: walk older
from the anchor in steps of interval_samples, stopping at the store edge
or after max_col_cnt - 1 columns. -/
def buildSlices (history : TimeMemory) (interval_samples : ℤ) :
    Nat → ℤ → List Info
  | 0, _ => []
  | n+1, idx =>
    if idx < 0 ∨ (history.infos.length : ℤ) ≤ idx then []
    else
      match history.infos.get? idx.toNat with
      | none => []
      | some s => s :: buildSlices history interval_samples n (idx + interval_samples)

/-- TimeSlicer.get_fixed_slices.  Returns the display columns and the
selector state left behind (the source mutates self.tack and drains
self.horizontal_moves).  The is_mode_switch parameter is accepted and,
as in the source, never read.  A store quantum of zero raises in the
source when interval_samples is computed, before the small-store guard;
that path is none. -/
def get_fixed_slices (history : TimeMemory) (sl : SlicerState) (interval_secs : ℤ)
    (max_col_cnt : Nat) ( is_mode_switch : Bool) : Option (List Info × SlicerState) :=
  if history.info_secs = 0 then none
  else
    let interval_samples := interval_secs / (history.info_secs : ℤ)
    if history.infos.length < 2 then
      some ((match history.infos with | [] => [] | x :: _ => [x]), sl)
    else
      match get_range_ns history interval_secs max_col_cnt with
      | none => none
      | some range_ns =>
        match apply_pending_moves history interval_secs range_ns sl with
        | none => none
        | some tack =>
          match history.infos with
          | [] => none
          | newest :: _ =>
            let slices := (buildSlices history interval_samples
                            (max_col_cnt - 1) tack.idx).reverse ++ [newest]
            let newTack := if tack.idx = range_ns.right_upper.idx then none
                           else some tack
            some (slices, { tack := newTack, horizontal_moves := [] })

/-
  Concrete append scripts used to settle the claims.
-/

/-- Run a script of appends from an arbitrary starting store. -/
def runFrom (tm : TimeMemory) (script : List (Info × Bool)) : TimeMemory :=
  script.foldl (fun t ib => (append_info t ib.1 ib.2).1) tm

/-- A strictly increasing run that first fills the store densely
(time keys 0..606, firing the first compression at key 600), then skips
ahead to 623 and continues 624, 625, 626. -/
def c1Script : List Nat := (List.range 607) ++ [623, 624, 625, 626]

/-- One push: a gap append landing on the next multiple of fifteen,
then the append one second later that stores that multiple. -/
def pushPair (k : Nat) : List (Info × Bool) :=
  [({mono := 15*k + 15, data := 0}, false), ({mono := 15*k + 16, data := 0}, false)]

def pushChunk (a n : Nat) : List (Info × Bool) :=
  (List.range n).flatMap (fun i => pushPair (a + i))

/-- The store after the two opening appends of c4Script and m pushes:
the newest sample one second past the m-th multiple of fifteen, the
multiples of fifteen below it, quantum five. -/
def pushState (m : Nat) : TimeMemory :=
  { infos := { mono := 15*m + 1, data := 0 } ::
      (List.range m).map (fun j => { mono := 15*(m - j), data := 0 }),
    info_secs := 5, comp_idx := 1, state := "grow" }

/-- A script of strictly increasing appends after which the store holds
601 samples: an append at t=1, a forced compression at t=2 (the UI
exposes force_compression; it raises the quantum to five while the store
holds a single sample), then six hundred pushes at multiples of fifteen.
The final push raises the length to 601 and fires a compression whose
filter keeps every older sample, so the call returns with 601 stored. -/
def c4Script : List (Info × Bool) :=
  ([({mono := 1, data := 0}, false), ({mono := 2, data := 0}, true)] ++ pushChunk 0 99) ++
  pushChunk 99 100 ++ pushChunk 199 100 ++ pushChunk 299 100 ++
  pushChunk 399 100 ++ pushChunk 499 100 ++ pushPair 599

/-- An arithmetic progression of time keys, newest first: the k keys
q*s, (q-1)*s, ..., (q-k+1)*s. -/
def progression (q k s : Nat) : List Nat := (List.range k).map (fun i => (q - i) * s)

/-- The dense-run invariant: the quantum is positive, the store is within
capacity, and the store is either empty or a head x over a tail whose
time keys form a progression of consecutive multiples of the quantum,
with the head key inside the quantum slot just above the tail. -/
def DInv (tm : TimeMemory) : Prop :=
  1 ≤ tm.info_secs ∧ tm.infos.length ≤ MAX_INFOS ∧
    (tm.infos = [] ∨
      ∃ x xs q k, tm.infos = x :: xs ∧
        xs.map Info.mono = progression q k tm.info_secs ∧ k ≤ q + 1 ∧
        (k = 0 ∨ (q * tm.info_secs < x.mono ∧ x.mono ≤ (q + 1) * tm.info_secs)))


/-
  Theorems.  Each claim Cn of the specification gets exactly one theorem,
  with counterexamples and witnesses as separate closed statements.
-/

theorem runFrom_append (tm : TimeMemory) (a b : List (Info × Bool)) :
    runFrom tm (a ++ b) = runFrom (runFrom tm a) b := by
  simp [runFrom, List.foldl_append]

theorem runScript_eq_runFrom (s : Nat) (sc : List (Info × Bool)) :
    runScript s sc = runFrom (TimeMemory.init s) sc := rfl

/-- Chunked evaluation of c4Script (kept as separate kernel computations
to bound the reduction depth of any single proof). -/
theorem c4_chunk0 :
    runFrom (TimeMemory.init 1)
      ([({mono := 1, data := 0}, false), ({mono := 2, data := 0}, true)] ++ pushChunk 0 99)
    = pushState 99 := by decide

theorem c4_chunk1 : runFrom (pushState 99) (pushChunk 99 100) = pushState 199 := by decide

theorem c4_chunk2 : runFrom (pushState 199) (pushChunk 199 100) = pushState 299 := by decide

theorem c4_chunk3 : runFrom (pushState 299) (pushChunk 299 100) = pushState 399 := by decide

theorem c4_chunk4 : runFrom (pushState 399) (pushChunk 399 100) = pushState 499 := by decide

theorem c4_chunk5 : runFrom (pushState 499) (pushChunk 499 100) = pushState 599 := by decide

theorem c4_final : (runFrom (pushState 599) (pushPair 599)).infos.length = 601 := by decide

/-- C4 counterexample: a sequence of strictly increasing appends (one of
them using the force_compression flag that the UI exposes) after which
append_info returns with 601 stored samples, exceeding MAX_INFOS = 600:
the last compression multiplies the quantum by three but its filter
keeps every older sample, so nothing is removed before the call
completes. -/
theorem C4_counterexample :
    ¬ ((runScript 1 c4Script).infos.length ≤ MAX_INFOS) := by
  have h : (runScript 1 c4Script).infos.length = 601 := by
    rw [runScript_eq_runFrom, c4Script,
        runFrom_append, runFrom_append, runFrom_append, runFrom_append,
        runFrom_append, runFrom_append,
        c4_chunk0, c4_chunk1, c4_chunk2, c4_chunk3, c4_chunk4, c4_chunk5, c4_final]
  rw [h]
  decide

/-- C1 counterexample: after the strictly increasing run c1Script the
quantum is five, but the two newest stored samples are one second apart
(626, 625) and the next pair is twenty seconds apart (625, 605), so
consecutive stored time keys do not differ by the quantum, neither at
the pair (0,1) nor within the older samples. -/
theorem C1_counterexample :
    (runMonos c1Script).info_secs = 5 ∧
    ((runMonos c1Script).infos.map (fun i => i.mono)).take 4 = [626, 625, 605, 600] ∧
    626 - 625 ≠ 5 ∧ 625 - 605 ≠ 5 := by decide

/-- C2 counterexample: appending at t=1 then t=4 on a fresh store with
quantum one synthesizes the t=2 and t=3 samples as copies of the
incoming t=4 sample (payload 99), not of the stored t=1 sample
(payload 10), so the claimed carry-forward of series[0] fails. -/
theorem C2_counterexample :
    (runScript 1 [({mono := 1, data := 10}, false), ({mono := 4, data := 99}, false)]).infos
      = [{mono := 4, data := 99}, {mono := 3, data := 99},
         {mono := 2, data := 99}, {mono := 1, data := 10}] ∧
    ({mono := 3, data := 99} : Info) ≠ {mono := 3, data := 10} := by decide

/-- C3 counterexample: a store of three samples whose oldest time key, 0,
is far older than series[0].time_key minus RETENTION_SECONDS; the append
at t=200001 inserts but prunes nothing, because the pruning loop only
runs while the store holds more than MAX_INFOS samples. -/
theorem C3_counterexample :
    (append_info { infos := [{mono := 200000, data := 0}, {mono := 0, data := 0}],
                   info_secs := 1, comp_idx := 0, state := "grow" }
       {mono := 200001, data := 0} false).1.infos
      = [{mono := 200001, data := 0}, {mono := 200000, data := 0}, {mono := 0, data := 0}] ∧
    0 + RETENTION_SEC < 200001 := by decide

/-- C5 counterexample: on a two-sample store a column budget of one
reaches the spread computation, which divides by max_col_cnt - 1 = 0 and
raises in the source; no sample list is returned at all, so the claimed
bounds cannot hold for every budget n ≥ 1. -/
theorem C5_counterexample :
    get_var_slices { infos := [{mono := 3, data := 3}, {mono := 2, data := 2}],
                     info_secs := 1, comp_idx := 0, state := "grow" } 1 = none := by decide

/-- C6: evaluation at the failing input.  The source computes
spread = (total-1)/(max_col_cnt-1) before the sampling loop with no
single-column short-circuit, so a budget of one over a two-sample store
divides by zero instead of returning the live sample. -/
theorem C6_evaluation :
    get_var_slices { infos := [{mono := 1, data := 1}, {mono := 0, data := 0}],
                     info_secs := 1, comp_idx := 0, state := "grow" } 1 = none := by decide

/-- C7: evaluation at the failing input.  get_fixed_slices receives
is_mode_switch = true but never reads it: with a pinned tack at time key
2 the resolved anchor stays at index 4 (sample 2) and the pin survives,
whereas the rightmost historical slot is index 2 (sample 4); a mode
change does not reset the anchor to the live edge. -/
theorem C7_evaluation :
    get_fixed_slices { infos := [{mono := 6, data := 6}, {mono := 5, data := 5},
                                 {mono := 4, data := 4}, {mono := 3, data := 3},
                                 {mono := 2, data := 2}, {mono := 1, data := 1},
                                 {mono := 0, data := 0}],
                       info_secs := 1, comp_idx := 0, state := "grow" }
        { tack := some { idx := 4, mono := 2 }, horizontal_moves := [] } 2 2 true
      = some ([{mono := 2, data := 2}, {mono := 6, data := 6}],
              { tack := some { idx := 4, mono := 2 }, horizontal_moves := [] }) ∧
    (get_range_ns { infos := [{mono := 6, data := 6}, {mono := 5, data := 5},
                              {mono := 4, data := 4}, {mono := 3, data := 3},
                              {mono := 2, data := 2}, {mono := 1, data := 1},
                              {mono := 0, data := 0}],
                    info_secs := 1, comp_idx := 0, state := "grow" } 2 2).map
        (fun r => r.right_upper) = some { idx := 2, mono := 4 } ∧
    (4 : ℤ) ≠ 2 := by decide

/-- C8 counterexample: over one store state and one selector state with a
pinned tack, two consecutive calls with identical arguments, no mode
change, no queued commands and no intervening append return different
historical columns (sample 99, then sample 18): re-resolving the pin by
time key is not idempotent. -/
theorem C8_counterexample :
    get_fixed_slices { infos := [{mono := 20, data := 20}, {mono := 19, data := 19},
                                 {mono := 18, data := 18}, {mono := 3, data := 3},
                                 {mono := 99, data := 99}, {mono := 1, data := 1},
                                 {mono := 0, data := 0}],
                       info_secs := 1, comp_idx := 0, state := "grow" }
        { tack := some { idx := 4, mono := 16 }, horizontal_moves := [] } 2 2 false
      = some ([{mono := 99, data := 99}, {mono := 20, data := 20}],
              { tack := some { idx := 4, mono := 99 }, horizontal_moves := [] }) ∧
    get_fixed_slices { infos := [{mono := 20, data := 20}, {mono := 19, data := 19},
                                 {mono := 18, data := 18}, {mono := 3, data := 3},
                                 {mono := 99, data := 99}, {mono := 1, data := 1},
                                 {mono := 0, data := 0}],
                       info_secs := 1, comp_idx := 0, state := "grow" }
        { tack := some { idx := 4, mono := 99 }, horizontal_moves := [] } 2 2 false
      = some ([{mono := 18, data := 18}, {mono := 20, data := 20}],
              { tack := none, horizontal_moves := [] }) ∧
    ([{mono := 99, data := 99}] : List Info) ≠ [{mono := 18, data := 18}] := by decide

/-- C9: appending a sample whose time key is below the stored top takes
the in-past branch: the sample list, the quantum and the stage are all
left unchanged, no exception is raised (the function returns normally
with the not-compressed flag), and only the diagnostic state string is
touched. -/
theorem C9_stale_rejection (tm : TimeMemory) (info : Info) (force : Bool)
    (top : Info) (rest : List Info) (h : tm.infos = top :: rest)
    (hlt : info.mono < top.mono) :
    (append_info tm info force).1.infos = tm.infos ∧
    (append_info tm info force).1.info_secs = tm.info_secs ∧
    (append_info tm info force).1.comp_idx = tm.comp_idx ∧
    (append_info tm info force).2 = false := by
  simp [append_info, appendInfoFuel, h, hlt]

theorem C9_stale_rejection_witness :
    (append_info { infos := [{mono := 5, data := 1}], info_secs := 1,
                   comp_idx := 0, state := "grow" } {mono := 3, data := 2} false).1.infos
      = [{mono := 5, data := 1}] := by
  have h := C9_stale_rejection
    { infos := [{mono := 5, data := 1}], info_secs := 1, comp_idx := 0, state := "grow" }
    {mono := 3, data := 2} false {mono := 5, data := 1} [] rfl (by decide)
  exact h.1

/-- C8 (amended): with no pinned anchor and no queued pan commands,
get_fixed_slices leaves the selector state unchanged, so a second call
with the same interval and budget, no mode change and no new data
returns exactly the same columns (historical and live).  With a pinned
anchor the original claim fails (see the counterexample): re-resolving
the pin by time key need not be idempotent on an arbitrary store. -/
theorem C8_no_pin_stability (history : TimeMemory) (sl : SlicerState)
    (interval_secs : ℤ) (max_col_cnt : Nat) (out : List Info) (st1 : SlicerState)
    (htack : sl.tack = none) (hmoves : sl.horizontal_moves = [])
    (h1 : get_fixed_slices history sl interval_secs max_col_cnt false = some (out, st1)) :
    st1 = sl ∧
    get_fixed_slices history st1 interval_secs max_col_cnt false = some (out, st1) := by
  obtain ⟨t, mv⟩ := sl
  simp only at htack hmoves
  subst htack; subst hmoves
  have hst : st1 = ({ tack := none, horizontal_moves := [] } : SlicerState) := by
    simp only [get_fixed_slices, apply_pending_moves, List.foldlM_nil] at h1
    split at h1
    · simp at h1
    · split at h1
      · simp only [Option.some.injEq, Prod.mk.injEq] at h1
        exact h1.2.symm
      · split at h1
        · simp at h1
        · split at h1
          · simp at h1
          · simp only [Option.some.injEq, Prod.mk.injEq] at h1
            rw [← h1.2]
            simp
  refine ⟨hst, ?_⟩
  rw [hst] at h1 ⊢
  exact h1

theorem C8_no_pin_stability_witness :
    ({ tack := none, horizontal_moves := [] } : SlicerState)
      = { tack := none, horizontal_moves := [] } ∧
    get_fixed_slices { infos := [{mono := 9, data := 9}, {mono := 8, data := 8},
                                 {mono := 7, data := 7}, {mono := 6, data := 6},
                                 {mono := 5, data := 5}],
                       info_secs := 1, comp_idx := 0, state := "grow" }
        { tack := none, horizontal_moves := [] } 2 3 false
      = some ([{mono := 6, data := 6}, {mono := 8, data := 8}, {mono := 9, data := 9}],
              { tack := none, horizontal_moves := [] }) :=
  C8_no_pin_stability _ _ 2 3 _ _ rfl rfl (by decide)

theorem appendInfoFuel_succ (fuel : Nat) (tm : TimeMemory) (info : Info) (force : Bool) :
    appendInfoFuel (fuel+1) tm info force =
      match tm.infos with
      | [] => ({ tm with infos := [info], comp_idx := 0, state := "init" }, false)
      | top :: _ =>
        if info.mono < top.mono then
          ({ tm with state := "in-past" }, false)
        else if info.mono = top.mono then
          ({ tm with infos := info :: tm.infos.tail, state := "reuse" }, false)
        else
          let gap := info.mono - (top.mono + 1)
          let hole := gap ≠ 0
          let p := (List.range gap).foldl (fun q _ => holeStep fuel info q) (tm, top.mono)
          if p.2 % p.1.info_secs ≠ 0 then
            ({ p.1 with infos := info :: p.1.infos.tail,
                        state := (if hole then "hole-reuse" else "reuse") }, false)
          else
            let tm2 := { p.1 with infos := info :: p.1.infos,
                                  state := (if hole then "hole-grow" else "grow") }
            let pr := pruneInfos ((info.mono : Int) - (RETENTION_SEC : Int)) tm2.infos
            let tm3 := { tm2 with infos := pr }
            if MAX_INFOS < tm3.infos.length || force then
              (compressStep tm3, true)
            else
              (tm3, false) := by
  rfl

theorem pruneInfos_of_le (c : Int) (l : List Info) (h : l.length ≤ MAX_INFOS) :
    pruneInfos c l = l := by
  unfold pruneInfos
  cases hl : l.length with
  | zero => rfl
  | succ n =>
    unfold pruneFuel
    rw [if_neg (by omega)]

theorem append_nohole (fuel : Nat) (tm : TimeMemory) (info : Info) (force : Bool)
    (x : Info) (xs : List Info) (hinf : tm.infos = x :: xs) (hm : info.mono = x.mono + 1) :
    appendInfoFuel (fuel+1) tm info force =
      if x.mono % tm.info_secs ≠ 0 then
        ({ tm with infos := info :: xs, state := "reuse" }, false)
      else if MAX_INFOS <
          (pruneInfos ((info.mono : Int) - (RETENTION_SEC : Int)) (info :: x :: xs)).length
          || force then
        (compressStep
          { tm with
              infos := pruneInfos ((info.mono : Int) - (RETENTION_SEC : Int)) (info :: x :: xs),
              state := "grow" }, true)
      else
        ({ tm with
            infos := pruneInfos ((info.mono : Int) - (RETENTION_SEC : Int)) (info :: x :: xs),
            state := "grow" }, false) := by
  rw [appendInfoFuel_succ]
  simp only [hinf]
  rw [if_neg (by omega), if_neg (by omega)]
  have hg : info.mono - (x.mono + 1) = 0 := by omega
  simp only [hg, List.range_zero, List.foldl_nil]
  simp only [ne_eq, decide_not]
  split
  · simp_all
  · simp_all

theorem fake_shift (info : Info) (a g : Nat) :
    (List.range (g+1)).map (fun i => fakeInfo info (a + (g+1) - i)) =
      fakeInfo info (a + (g+1)) :: (List.range g).map (fun i => fakeInfo info (a + g - i)) := by
  rw [List.range_succ_eq_map]
  simp only [List.map_cons, List.map_map, Nat.sub_zero]
  rw [List.cons.injEq]
  refine ⟨rfl, ?_⟩
  refine List.map_congr_left ?_
  intro i _
  simp only [Function.comp_apply]
  exact congrArg (fakeInfo info) (by omega)

theorem holeFold_secs1 (fuel : Nat) (info x : Info) (xs : List Info) (tm : TimeMemory)
    (hinf : tm.infos = x :: xs) (hsecs : tm.info_secs = 1)
    (g : Nat) (hlen : tm.infos.length + g ≤ MAX_INFOS) :
    (List.range g).foldl (fun q _ => holeStep (fuel+1) info q) (tm, x.mono) =
      ({ tm with
          infos := ((List.range g).map (fun i => fakeInfo info (x.mono + g - i))) ++ x :: xs,
          state := if g = 0 then tm.state else "grow" },
       x.mono + g) := by
  induction g with
  | zero => simp [← hinf]
  | succ g ih =>
    rw [fake_shift info x.mono g]
    rw [List.range_succ, List.foldl_append, ih (by omega), List.foldl_cons, List.foldl_nil]
    cases g with
    | zero =>
      simp only [List.range_zero, List.map_nil, List.nil_append, if_pos rfl]
      unfold holeStep
      simp only [hsecs, Nat.mod_one, ne_eq, not_true_eq_false, if_false,
                 decide_eq_true_eq, not_false_eq_true]
      rw [append_nohole fuel _ _ _ x xs (by simp) (by simp [fakeInfo])]
      rw [if_neg (by simp [hsecs]; omega)]
      simp only
      rw [pruneInfos_of_le _ _ (by simp [hinf] at hlen ⊢; omega)]
      rw [if_neg (by simp only [Bool.or_false, decide_eq_true_eq, not_lt, List.length_cons]
                     simp [hinf] at hlen ⊢
                     omega)]
      rw [Prod.mk.injEq]
      exact ⟨by simp [fakeInfo], rfl⟩
    | succ g' =>
      have hne : ¬ (g' + 1 = 0) := by omega
      simp only [if_neg hne]
      unfold holeStep
      simp only [hsecs, Nat.mod_one, ne_eq, not_true_eq_false, if_false,
                 decide_eq_true_eq, not_false_eq_true]
      rw [fake_shift info x.mono g']
      rw [append_nohole fuel _ _ _ (fakeInfo info (x.mono + (g'+1)))
            (((List.range g').map (fun i => fakeInfo info (x.mono + g' - i))) ++ x :: xs)
            (by simp) (by simp [fakeInfo])]
      rw [if_neg (by simp [hsecs, fakeInfo]; omega)]
      rw [pruneInfos_of_le _ _ (by simp [hinf] at hlen ⊢; omega)]
      rw [if_neg (by simp only [Bool.or_false, decide_eq_true_eq, not_lt, List.length_cons]
                     simp [hinf] at hlen ⊢
                     omega)]
      rw [Prod.mk.injEq]
      refine ⟨?_, by omega⟩
      rw [TimeMemory.mk.injEq]
      refine ⟨?_, rfl, rfl, rfl⟩
      rw [List.cons_append, List.cons.injEq]
      exact ⟨congrArg (fakeInfo info) (by omega), rfl⟩

/-- C2 (amended): when append must fill a gap at quantum one, every
synthesized intermediate sample is a copy of the incoming sample with
only its time key changed (get_fake_info copies the argument info, not
the stored series[0]); appending at t=1 then t=4 therefore stores
synthesized samples at t=2 and t=3 carrying the t=4 payload, plus the
real t=4 sample and the original t=1 sample, four elements in total. -/
theorem C2_synthetic_copies_incoming (tm : TimeMemory) (info x : Info) (xs : List Info)
    (hinf : tm.infos = x :: xs) (hsecs : tm.info_secs = 1)
    (hlt : x.mono < info.mono)
    (hlen : tm.infos.length + (info.mono - x.mono) ≤ MAX_INFOS) :
    (append_info tm info false).1.infos =
      info :: ((List.range (info.mono - x.mono - 1)).map
        (fun i => fakeInfo info (info.mono - 1 - i))) ++ x :: xs ∧
    (append_info tm info false).1.info_secs = tm.info_secs ∧
    (append_info tm info false).2 = false := by
  have hfuel : info.mono + 2 = (info.mono + 1) + 1 := rfl
  rw [append_info, hfuel, appendInfoFuel_succ]
  simp only [hinf]
  rw [if_neg (by omega), if_neg (by omega)]
  have hfuel2 : info.mono + 1 = info.mono + 1 := rfl
  rw [holeFold_secs1 info.mono info x xs tm hinf hsecs (info.mono - (x.mono + 1))
        (by omega)]
  simp only [hsecs, Nat.mod_one, ne_eq, not_true_eq_false, if_false,
             decide_eq_true_eq, not_false_eq_true]
  rw [pruneInfos_of_le _ _ (by simp [hinf] at hlen ⊢; omega)]
  rw [if_neg (by simp only [Bool.or_false, decide_eq_true_eq, not_lt, List.length_cons]
                 simp [hinf] at hlen ⊢
                 omega)]
  refine ⟨?_, rfl, rfl⟩
  have hg : info.mono - (x.mono + 1) = info.mono - x.mono - 1 := by omega
  simp only [hg]
  refine congrArg (fun l => info :: l) ?_
  simp only [List.append_eq]
  rw [List.append_left_inj]
  refine List.map_congr_left ?_
  intro i _
  exact congrArg (fakeInfo info) (by omega)

theorem C2_synthetic_copies_incoming_witness :
    (append_info { infos := [{mono := 1, data := 10}], info_secs := 1,
                   comp_idx := 0, state := "init" } {mono := 4, data := 99} false).1.infos
      = {mono := 4, data := 99} ::
          ((List.range (4 - 1 - 1)).map
            (fun i => fakeInfo {mono := 4, data := 99} (4 - 1 - i))) ++
          {mono := 1, data := 10} :: [] ∧
    (append_info { infos := [{mono := 1, data := 10}], info_secs := 1,
                   comp_idx := 0, state := "init" } {mono := 4, data := 99} false).1.info_secs
      = 1 ∧
    (append_info { infos := [{mono := 1, data := 10}], info_secs := 1,
                   comp_idx := 0, state := "init" } {mono := 4, data := 99} false).2 = false :=
  C2_synthetic_copies_incoming _ {mono := 4, data := 99} {mono := 1, data := 10} []
    rfl rfl (by decide) (by decide)

theorem pruneFuel_take (fu : Nat) (c : Int) (n : Nat) (l : List Info) :
    ∃ k, pruneFuel fu c n l = l.take k := by
  induction fu generalizing n l with
  | zero => exact ⟨l.length, by simp [pruneFuel]⟩
  | succ fu ih =>
    unfold pruneFuel
    split
    · split
      · split
        · exact ⟨l.length, by simp⟩
        · obtain ⟨k, hk⟩ := ih (n-1) l.dropLast
          exact ⟨min k (l.length - 1), by rw [hk, List.dropLast_eq_take, List.take_take]⟩
      · exact ⟨l.length, by simp⟩
    · exact ⟨l.length, by simp⟩

theorem pruneInfos_take (c : Int) (l : List Info) : ∃ k, pruneInfos c l = l.take k :=
  pruneFuel_take l.length c l.length l

theorem pruneFuel_post (fu : Nat) (c : Int) (n : Nat) (l : List Info)
    (hfu : l.length ≤ fu) (hn : n = l.length) :
    (pruneFuel fu c n l).length ≤ MAX_INFOS ∨
    ∃ z, (pruneFuel fu c n l).getLast? = some z ∧ c ≤ (z.mono : Int) := by
  induction fu generalizing n l with
  | zero =>
    left
    have : l = [] := List.eq_nil_of_length_eq_zero (by omega)
    simp [pruneFuel, this]
  | succ fu ih =>
    unfold pruneFuel
    split
    · split
      · split
        · right
          refine ⟨_, by assumption, by assumption⟩
        · refine ih (n-1) l.dropLast ?_ ?_
          case _ =>
            rw [List.length_dropLast]
            omega
          rename_i hz _
          have hne : l ≠ [] := by
            intro he
            rw [he] at hz
            simp at hz
          rw [List.length_dropLast]
          have : 1 ≤ l.length := by
            cases l with
            | nil => simp at hne
            | cons a as => simp
          omega
      · left
        rename_i hz
        have : l = [] := by
          cases l with
          | nil => rfl
          | cons a as =>
            exfalso
            have := List.getLast?_isSome (l := a :: as)
            rw [hz] at this
            simp at this
        simp [this]
    · left
      omega

theorem getLast_le_of_pairwise (l : List Info)
    (hp : l.Pairwise (fun a b => b.mono ≤ a.mono)) :
    ∀ y ∈ l, ∀ z, l.getLast? = some z → z.mono ≤ y.mono := by
  induction l with
  | nil => simp
  | cons a as ih =>
    intro y hy z hz
    cases as with
    | nil =>
      simp at hy hz
      simp [hy, hz]
    | cons b bs =>
      rw [List.getLast?_cons_cons] at hz
      have hz_mem : z ∈ b :: bs := List.mem_of_mem_getLast? (hz ▸ rfl)
      rcases List.mem_cons.mp hy with hya | hyin
      · subst hya
        exact le_trans ((List.pairwise_cons.mp hp).1 z hz_mem) (le_refl _)
      · exact ih (List.pairwise_cons.mp hp).2 y hyin z hz

theorem pruneInfos_post (c : Int) (l : List Info) :
    (pruneInfos c l).length ≤ MAX_INFOS ∨
    ∃ z, (pruneInfos c l).getLast? = some z ∧ c ≤ (z.mono : Int) :=
  pruneFuel_post l.length c l.length l (le_refl _) rfl

/-- C3 (amended): retention pruning removes samples only from the oldest
end (the pruned list is always a front segment of the input), and it
runs only while the store holds more than MAX_INFOS samples — a store
at or below capacity keeps samples older than the retention cutoff.
After an append that inserts a new sample into a store sorted newest
first, either the store is within capacity (and may retain old samples)
or every retained sample is at or above the retention cutoff. -/
theorem C3_retention_only_over_capacity :
    (∀ (c : Int) (l : List Info), ∃ k, pruneInfos c l = l.take k) ∧
    (∀ (c : Int) (l : List Info), l.length ≤ MAX_INFOS → pruneInfos c l = l) ∧
    (∀ (tm : TimeMemory) (info x : Info) (rest : List Info),
      tm.infos = x :: rest →
      (x :: rest).Pairwise (fun a b => b.mono ≤ a.mono) →
      info.mono = x.mono + 1 → x.mono % tm.info_secs = 0 →
      (append_info tm info false).1.infos.length ≤ MAX_INFOS ∨
      ∀ y ∈ (append_info tm info false).1.infos,
        (info.mono : Int) - RETENTION_SEC ≤ (y.mono : Int)) := by
  refine ⟨pruneInfos_take, pruneInfos_of_le, ?_⟩
  intro tm info x rest hinf hpw hm hmod
  have hfuel : info.mono + 2 = (info.mono + 1) + 1 := rfl
  rw [append_info, hfuel, append_nohole (info.mono + 1) tm info false x rest hinf hm]
  rw [if_neg (by simp [hmod])]
  set c : Int := (info.mono : Int) - (RETENTION_SEC : Int) with hc
  set l : List Info := info :: x :: rest with hl
  have hpl : l.Pairwise (fun a b => b.mono ≤ a.mono) := by
    rw [hl, List.pairwise_cons]
    refine ⟨?_, hpw⟩
    intro b hb
    rcases List.mem_cons.mp hb with h1 | h2
    · subst h1
      omega
    · have := (List.pairwise_cons.mp hpw).1 b h2
      omega
  have hpp : l.Pairwise (fun a b => (b.mono : Int) ≤ (a.mono : Int)) := by
    refine hpl.imp ?_
    intro a b h
    exact_mod_cast h
  split
  · -- compression fires
    rename_i hlen
    simp only [Bool.or_false, decide_eq_true_eq] at hlen
    rcases pruneInfos_post c l with hsmall | ⟨z, hz, hcz⟩
    · left
      simp only [compressStep]
      simp only [List.length_append, List.length_take]
      have : (pruneInfos c l).length = ((pruneInfos c l).take 1).length
           + ((pruneInfos c l).drop 1).length := by
        rw [← List.length_append, List.take_append_drop]
      have hf := List.length_filter_le
        (fun y => y.mono % (tm.info_secs * COMPRESSION_MULTIPLIERS.getD
          (tm.comp_idx % COMPRESSION_MULTIPLIERS.length) 0) == 0)
        ((pruneInfos c l).drop 1)
      omega
    · right
      intro y hy
      -- every element of the compressed store was in the pruned list
      have hmem : y ∈ pruneInfos c l := by
        simp only [compressStep] at hy
        rcases List.mem_append.mp hy with h1 | h2
        · exact List.mem_of_mem_take h1
        · exact List.mem_of_mem_drop (List.mem_of_mem_filter h2)
      -- pruned list is a prefix of l, so pairwise still holds and z is its last
      obtain ⟨k, hk⟩ := pruneInfos_take c l
      have hppr : (pruneInfos c l).Pairwise (fun a b => b.mono ≤ a.mono) := by
        rw [hk]
        exact hpl.sublist (List.take_sublist k l)
      have := getLast_le_of_pairwise _ hppr y hmem z hz
      omega
  · -- no compression: the pruned store is at or below capacity
    rename_i hlen
    simp only [Bool.or_false, decide_eq_true_eq, not_lt] at hlen
    left
    exact hlen

theorem C3_retention_only_over_capacity_witness :
    (∃ k, pruneInfos 0 [({mono := 5, data := 5} : Info)]
      = [({mono := 5, data := 5} : Info)].take k) ∧
    pruneInfos 7 [({mono := 9, data := 9} : Info)] = [({mono := 9, data := 9} : Info)] ∧
    ((append_info { infos := [{mono := 1, data := 1}], info_secs := 1,
                    comp_idx := 0, state := "grow" } {mono := 2, data := 2} false).1.infos.length
        ≤ MAX_INFOS ∨
     ∀ y ∈ (append_info { infos := [{mono := 1, data := 1}], info_secs := 1,
                          comp_idx := 0, state := "grow" }
              {mono := 2, data := 2} false).1.infos,
       ((2 : Nat) : Int) - RETENTION_SEC ≤ (y.mono : Int)) :=
  ⟨C3_retention_only_over_capacity.1 0 _,
   C3_retention_only_over_capacity.2.1 7 _ (by decide),
   C3_retention_only_over_capacity.2.2 _ {mono := 2, data := 2} {mono := 1, data := 1} []
     rfl (by decide) (by decide) (by decide)⟩

theorem pythonRound_bounds (a b : ℤ) (hb : 0 < b) :
    2 * (b * pythonRound a b - a) ≤ b ∧ 2 * (a - b * pythonRound a b) ≤ b := by
  have hdm : b * (a / b) + a % b = a := Int.ediv_add_emod a b
  have hr0 : 0 ≤ a % b := Int.emod_nonneg a (by omega)
  have hrb : a % b < b := Int.emod_lt_of_pos a hb
  unfold pythonRound
  dsimp only
  split
  · omega
  · split
    · rw [mul_add]
      omega
    · split
      · omega
      · rw [mul_add]
        omega

theorem pythonRound_lt (a a' b : ℤ) (hb : 0 < b) (h : a + b < a') :
    pythonRound a b < pythonRound a' b := by
  obtain ⟨h1, h2⟩ := pythonRound_bounds a b hb
  obtain ⟨h3, h4⟩ := pythonRound_bounds a' b hb
  by_contra hc
  push_neg at hc
  have : b * pythonRound a' b ≤ b * pythonRound a b :=
    mul_le_mul_of_nonneg_left hc (by omega)
  omega

theorem pythonRound_zero (b : ℤ) (hb : 0 < b) : pythonRound 0 b = 0 := by
  unfold pythonRound
  dsimp only
  rw [Int.zero_ediv, Int.zero_emod, if_pos (by omega)]

theorem pythonRound_le_of_le_mul (a b L : ℤ) (hb : 0 < b) (ha : a ≤ b * L) :
    pythonRound a b ≤ L := by
  obtain ⟨h1, h2⟩ := pythonRound_bounds a b hb
  nlinarith [pythonRound_bounds a b hb]

theorem pythonRound_nonneg (a b : ℤ) (hb : 0 < b) (ha : 0 ≤ a) :
    0 ≤ pythonRound a b := by
  obtain ⟨h1, h2⟩ := pythonRound_bounds a b hb
  nlinarith

/-- C5 (amended): for a non-empty store sorted newest first and a column
budget n of at least one, provided n is at least two or the whole store
fits the budget (a budget of one over a larger store divides by zero in
the source and returns nothing), get_var_slices returns at most n
samples, ordered oldest to newest (strictly increasing time keys), with
the live sample (series[0]) as the last element. -/
theorem C5_uniform_selection (history : TimeMemory) (n : Nat)
    (hne : history.infos ≠ []) (hn1 : 1 ≤ n)
    (hn : 2 ≤ n ∨ history.infos.length ≤ n)
    (hsorted : history.infos.Chain' (fun a b => b.mono < a.mono)) :
    ∃ sl, get_var_slices history n = some sl ∧
      sl.length ≤ n ∧
      sl.getLast? = history.infos.head? ∧
      sl.Chain' (fun a b => a.mono < b.mono) := by
  haveI : IsTrans Info (fun a b => b.mono < a.mono) :=
    ⟨fun a b c h1 h2 => lt_trans h2 h1⟩
  unfold get_var_slices
  by_cases hle : history.infos.length ≤ n
  · rw [if_pos hle]
    refine ⟨_, rfl, by simpa using hle, List.getLast?_reverse _, ?_⟩
    rw [List.chain'_reverse]
    exact hsorted
  · have hn2 : 2 ≤ n := by
      rcases hn with h | h
      · exact h
      · omega
    rw [if_neg hle, if_neg (by omega)]
    have hL : n < history.infos.length := by omega
    have hb : (0 : ℤ) < (n : ℤ) - 1 := by
      have := hn2
      omega
    -- bounds for the sampled indices
    have hidx : ∀ cnt : Nat, cnt ≤ n - 1 →
        (pythonRound ((cnt : ℤ) * ((history.infos.length : ℤ) - 1)) ((n : ℤ) - 1)).toNat
          < history.infos.length := by
      intro cnt hcnt
      have hup : (cnt : ℤ) * ((history.infos.length : ℤ) - 1)
          ≤ ((n : ℤ) - 1) * ((history.infos.length : ℤ) - 1) := by
        have h1 : (cnt : ℤ) ≤ (n : ℤ) - 1 := by omega
        exact mul_le_mul_of_nonneg_right h1 (by omega)
      have := pythonRound_le_of_le_mul _ _ ((history.infos.length : ℤ) - 1) hb hup
      omega
    refine ⟨_, rfl,
      by rw [List.length_reverse, List.length_map, List.length_range], ?_, ?_⟩
    · rw [List.getLast?_reverse, List.head?_map]
      obtain ⟨m, hm⟩ : ∃ m, n = m + 1 := ⟨n - 1, by omega⟩
      subst hm
      rw [List.range_succ_eq_map, List.head?_cons]
      simp only [Option.map_some', Nat.cast_zero, zero_mul, pythonRound_zero _ hb]
      cases hinfos : history.infos with
      | nil => simp [hinfos] at hne
      | cons a as => simp
    · rw [List.chain'_reverse, List.chain'_map]
      obtain ⟨m, hm⟩ : ∃ m, n = m + 1 := ⟨n - 1, by omega⟩
      subst hm
      rw [← Nat.succ_eq_add_one, List.chain'_range_succ]
      intro k hk
      have hpw := (List.chain'_iff_pairwise.mp hsorted)
      rw [List.pairwise_iff_getElem] at hpw
      have hr1 : (0 : ℤ) ≤ pythonRound ((k : ℤ) * ((history.infos.length : ℤ) - 1))
          ((m + 1 : ℕ) - 1 : ℤ) := by
        refine pythonRound_nonneg _ _ (by push_cast; omega) ?_
        have : (0 : ℤ) ≤ (k : ℤ) := by omega
        have : (0 : ℤ) ≤ (history.infos.length : ℤ) - 1 := by omega
        positivity
      have hlt : pythonRound ((k : ℤ) * ((history.infos.length : ℤ) - 1))
            ((m + 1 : ℕ) - 1 : ℤ)
          < pythonRound (((k+1 : ℕ) : ℤ) * ((history.infos.length : ℤ) - 1))
            ((m + 1 : ℕ) - 1 : ℤ) := by
        refine pythonRound_lt _ _ _ (by push_cast; omega) ?_
        push_cast
        have h1 : ((k : ℤ) + 1) * ((history.infos.length : ℤ) - 1)
            = (k : ℤ) * ((history.infos.length : ℤ) - 1)
              + ((history.infos.length : ℤ) - 1) := by ring
        rw [h1]
        omega
      have hb1 : (pythonRound ((k : ℤ) * ((history.infos.length : ℤ) - 1))
          ((m + 1 : ℕ) - 1 : ℤ)).toNat < history.infos.length := by
        refine hidx k ?_
        omega
      have hb2 : (pythonRound (((k+1 : ℕ) : ℤ) * ((history.infos.length : ℤ) - 1))
          ((m + 1 : ℕ) - 1 : ℤ)).toNat < history.infos.length := by
        refine hidx (k+1) ?_
        omega
      rw [List.getD_eq_getElem _ _ hb1, List.getD_eq_getElem _ _ hb2]
      exact hpw _ _ hb1 hb2 (by omega)

theorem C5_uniform_selection_witness :
    ∃ sl, get_var_slices { infos := [{mono := 9, data := 9}, {mono := 8, data := 8},
                                     {mono := 7, data := 7}, {mono := 6, data := 6},
                                     {mono := 5, data := 5}, {mono := 4, data := 4},
                                     {mono := 3, data := 3}, {mono := 2, data := 2},
                                     {mono := 1, data := 1}, {mono := 0, data := 0}],
                           info_secs := 1, comp_idx := 0, state := "grow" } 3 = some sl ∧
      sl.length ≤ 3 ∧
      sl.getLast? = ({ infos := [{mono := 9, data := 9}, {mono := 8, data := 8},
                                 {mono := 7, data := 7}, {mono := 6, data := 6},
                                 {mono := 5, data := 5}, {mono := 4, data := 4},
                                 {mono := 3, data := 3}, {mono := 2, data := 2},
                                 {mono := 1, data := 1}, {mono := 0, data := 0}],
                       info_secs := 1, comp_idx := 0, state := "grow" } : TimeMemory).infos.head? ∧
      sl.Chain' (fun a b => a.mono < b.mono) :=
  C5_uniform_selection _ 3 (by decide) (by decide) (by decide)
    (by simp [List.chain'_cons])

theorem div_add_div_le (a b f : Nat) (hf : 0 < f) :
    (a + b) / f ≤ a / f + b / f + 1 := by
  have h1 := Nat.div_add_mod a f
  have h2 := Nat.div_add_mod b f
  have h3 := Nat.mod_lt a hf
  have h4 := Nat.mod_lt b hf
  have h5 : a + b < (a / f + b / f + 2) * f := by nlinarith
  have := (Nat.div_lt_iff_lt_mul hf).mpr h5
  omega

theorem range_filter_prog (s f Q : Nat) (hs : 0 < s) (hf : 0 < f) :
    ∀ k, k ≤ Q + 1 →
    ((List.range k).map (fun i => (Q - i) * s)).filter (fun m => m % (s*f) == 0)
      = (List.range (if k ≤ Q then Q/f - (Q - k)/f else Q/f + 1)).map
          (fun j => (Q/f - j) * (s * f)) := by
  intro k
  induction k with
  | zero => simp
  | succ k ih =>
    intro hk1
    have hkQ : k ≤ Q := by omega
    rw [List.range_succ, List.map_append, List.filter_append, ih (by omega)]
    rw [if_pos hkQ]
    by_cases hdvd : f ∣ (Q - k)
    · -- the new (oldest) element is kept
      have hkept : ((Q - k) * s) % (s * f) == 0 := by
        have : s * f ∣ (Q - k) * s := by
          obtain ⟨c, hc⟩ := hdvd
          exact ⟨c, by rw [hc]; ring⟩
        simp [Nat.eq_zero_of_dvd_of_lt, Nat.mod_eq_zero_of_dvd this]
      have hstep : (if k + 1 ≤ Q then Q/f - (Q - (k+1))/f else Q/f + 1)
          = (Q/f - (Q - k)/f) + 1 := by
        rcases Nat.lt_or_ge k Q with hlt | hge
        · rw [if_pos (by omega)]
          have hn : Q - k = (Q - (k+1)) + 1 := by omega
          have := Nat.succ_div (Q - (k+1)) f
          rw [← hn] at this
          rw [if_pos hdvd] at this
          have hle : (Q - k)/f ≤ Q/f := Nat.div_le_div_right (by omega)
          have hle2 : (Q - (k+1))/f ≤ Q/f := Nat.div_le_div_right (by omega)
          omega
        · have hkq : k = Q := by omega
          subst hkq
          rw [if_neg (by omega)]
          simp
      rw [hstep, List.range_succ, List.map_append]
      have hfil : List.filter (fun m => m % (s * f) == 0) [(Q - k) * s] = [(Q - k) * s] := by
        simp only [List.filter_cons, hkept, if_true, List.filter_nil]
      rw [List.map_cons, List.map_nil, hfil]
      congr 1
      have helem : (Q - k) * s = (Q/f - (Q/f - (Q - k)/f)) * (s * f) := by
        have hle : (Q - k)/f ≤ Q/f := Nat.div_le_div_right (by omega)
        rw [Nat.sub_sub_self hle]
        obtain ⟨c, hc⟩ := hdvd
        rw [hc, Nat.mul_div_cancel_left c hf]
        ring
      rw [helem]
      simp
    · -- the new element is dropped
      have hkQlt : k < Q := by
        rcases Nat.lt_or_ge k Q with h | h
        · exact h
        · exfalso
          have : k = Q := by omega
          subst this
          simp at hdvd
      have hdropped : ¬ (((Q - k) * s) % (s * f) == 0) := by
        simp only [beq_iff_eq]
        intro hmod
        have : s * f ∣ (Q - k) * s := Nat.dvd_of_mod_eq_zero hmod
        rw [mul_comm (Q - k) s] at this
        have := (Nat.mul_dvd_mul_iff_left hs).mp this
        exact hdvd this
      have hstep : (if k + 1 ≤ Q then Q/f - (Q - (k+1))/f else Q/f + 1)
          = Q/f - (Q - k)/f := by
        rw [if_pos (by omega)]
        have hn : Q - k = (Q - (k+1)) + 1 := by omega
        have := Nat.succ_div (Q - (k+1)) f
        rw [← hn] at this
        rw [if_neg hdvd] at this
        omega
      rw [hstep]
      have hb : ((Q - k) * s % (s * f) == 0) = false := by simpa using hdropped
      have hfil : List.filter (fun m => m % (s * f) == 0) [(Q - k) * s] = [] := by
        simp only [List.filter_cons, hb, List.filter_nil]
        simp
      rw [List.map_cons, List.map_nil, hfil, List.append_nil]

theorem prog_length (q k s : Nat) : (progression q k s).length = k := by
  simp [progression]

theorem prog_shift (q k s : Nat) :
    progression (q+1) (k+1) s = (q+1) * s :: progression q k s := by
  unfold progression
  rw [List.range_succ_eq_map]
  simp only [List.map_cons, List.map_map, Nat.sub_zero]
  congr 1
  refine List.map_congr_left ?_
  intro i _
  simp only [Function.comp_apply]
  congr 1
  omega

theorem prog_dropLast (q k s : Nat) :
    (progression q k s).dropLast = progression q (k-1) s := by
  unfold progression
  cases k with
  | zero => simp
  | succ k =>
    rw [List.range_succ, List.map_append]
    simp

theorem filter_map_mono (p : Nat → Bool) (l : List Info) :
    (l.filter (fun y => p y.mono)).map Info.mono = (l.map Info.mono).filter p := by
  induction l with
  | nil => simp
  | cons x l ih =>
    simp only [List.map_cons, List.filter_cons]
    by_cases h : p x.mono
    · simp [h, ih]
    · simp [h, ih]

theorem map_mono_dropLast (l : List Info) :
    l.dropLast.map Info.mono = (l.map Info.mono).dropLast := by
  induction l with
  | nil => simp
  | cons x l ih =>
    cases l with
    | nil => simp
    | cons y l => simp only [List.dropLast_cons₂, List.map_cons] at ih ⊢; rw [ih]

theorem mult_ge_two (j : Nat) :
    2 ≤ COMPRESSION_MULTIPLIERS.getD (j % COMPRESSION_MULTIPLIERS.length) 0 := by
  have hlt : j % COMPRESSION_MULTIPLIERS.length < COMPRESSION_MULTIPLIERS.length :=
    Nat.mod_lt _ (by decide)
  have hall : ∀ r < COMPRESSION_MULTIPLIERS.length,
      2 ≤ COMPRESSION_MULTIPLIERS.getD r 0 := by decide
  exact hall _ hlt

theorem pruneFuel_stop (fu : Nat) (c : Int) (n : Nat) (l : List Info)
    (h : ¬ MAX_INFOS < n) : pruneFuel fu c n l = l := by
  cases fu with
  | zero => rfl
  | succ fu => unfold pruneFuel; rw [if_neg h]

theorem pruneInfos_small (c : Int) (l : List Info) (h : l.length ≤ MAX_INFOS + 1) :
    pruneInfos c l = l ∨ pruneInfos c l = l.dropLast := by
  rcases le_or_lt l.length MAX_INFOS with h6 | h6
  · left; exact pruneInfos_of_le c l h6
  · have hlen : l.length = MAX_INFOS + 1 := by omega
    unfold pruneInfos
    rw [hlen]
    unfold pruneFuel
    rw [if_pos (by omega)]
    have hne : l ≠ [] := by intro hl; rw [hl] at hlen; simp at hlen
    obtain ⟨z, hz⟩ := Option.isSome_iff_exists.mp (List.getLast?_isSome.mpr hne)
    rw [hz]
    dsimp only
    by_cases hc : c ≤ (z.mono : Int)
    · left; rw [if_pos hc]
    · right
      rw [if_neg hc]
      exact pruneFuel_stop _ _ _ _ (by omega)

theorem compressStep_eq (tm : TimeMemory) (x : Info) (t : List Info)
    (hinf : tm.infos = x :: t) :
    compressStep tm =
      { tm with
          info_secs := tm.info_secs *
            COMPRESSION_MULTIPLIERS.getD (tm.comp_idx % COMPRESSION_MULTIPLIERS.length) 0,
          infos := x :: t.filter (fun y =>
            y.mono % (tm.info_secs *
              COMPRESSION_MULTIPLIERS.getD (tm.comp_idx % COMPRESSION_MULTIPLIERS.length) 0)
                == 0),
          comp_idx := tm.comp_idx + 1 } := by
  simp [compressStep, hinf]

theorem compress_DInv (tm : TimeMemory) (info : Info) (t : List Info) (q K : Nat)
    (hs : 1 ≤ tm.info_secs)
    (hinf : tm.infos = info :: t)
    (hprog : t.map Info.mono = progression q K tm.info_secs)
    (hK : K ≤ q + 1) (hK600 : K ≤ MAX_INFOS)
    (hlow : q * tm.info_secs < info.mono)
    (hhigh : info.mono ≤ (q + 1) * tm.info_secs) :
    DInv (compressStep tm) ∧ (compressStep tm).infos.head? = some info := by
  rw [compressStep_eq tm info t hinf]
  have hf2 : 2 ≤ COMPRESSION_MULTIPLIERS.getD
      (tm.comp_idx % COMPRESSION_MULTIPLIERS.length) 0 := mult_ge_two tm.comp_idx
  set f := COMPRESSION_MULTIPLIERS.getD (tm.comp_idx % COMPRESSION_MULTIPLIERS.length) 0
    with hfdef
  have hf : 0 < f := by omega
  set s := tm.info_secs with hsdef
  -- the filtered tail is again a progression
  have hmapf : (t.filter (fun y => y.mono % (s * f) == 0)).map Info.mono
      = progression (q / f) (if K ≤ q then q/f - (q - K)/f else q/f + 1) (s * f) := by
    rw [filter_map_mono (fun m => m % (s * f) == 0) t, hprog]
    exact range_filter_prog s f q (by omega) hf K hK
  have hlenf : (t.filter (fun y => y.mono % (s * f) == 0)).length
      = (if K ≤ q then q/f - (q - K)/f else q/f + 1) := by
    have := congrArg List.length hmapf
    simpa [prog_length] using this
  have hK2 : (if K ≤ q then q/f - (q - K)/f else q/f + 1) ≤ K / 2 + 1 := by
    by_cases hKq : K ≤ q
    · rw [if_pos hKq]
      have hsum := div_add_div_le (q - K) K f hf
      rw [Nat.sub_add_cancel hKq] at hsum
      have hKf : K / f ≤ K / 2 := Nat.div_le_div_left hf2 (by omega)
      omega
    · rw [if_neg hKq]
      have hq : q = K - 1 := by omega
      have h1 : q / f ≤ q / 2 := Nat.div_le_div_left hf2 (by omega)
      have h2 : q / 2 ≤ K / 2 := Nat.div_le_div_right (by omega)
      omega
  have hK2q : (if K ≤ q then q/f - (q - K)/f else q/f + 1) ≤ q / f + 1 := by
    by_cases hKq : K ≤ q
    · rw [if_pos hKq]; exact le_trans (Nat.sub_le _ _) (Nat.le_succ _)
    · rw [if_neg hKq]
  have hdm := Nat.div_add_mod q f
  have hmlt : q % f < f := Nat.mod_lt q hf
  have hkey : q + 1 ≤ q / f * f + f := by nlinarith [hdm, hmlt]
  refine ⟨⟨by simp; nlinarith [hs, hf], ?_, ?_⟩, rfl⟩
  · -- capacity
    simp only [List.length_cons, hlenf]
    have hM : MAX_INFOS = 600 := rfl
    omega
  · -- shape
    right
    refine ⟨info, t.filter (fun y => y.mono % (s * f) == 0), q / f,
      (if K ≤ q then q/f - (q - K)/f else q/f + 1), rfl, hmapf, hK2q, Or.inr ⟨?_, ?_⟩⟩
    · -- lower bound
      have h1 : q / f * f ≤ q := Nat.div_mul_le_self q f
      have h2 : (q / f) * (s * f) ≤ q * s := by nlinarith [h1, hs]
      exact lt_of_le_of_lt h2 hlow
    · -- upper bound
      have h3 : (q + 1) * s ≤ (q / f + 1) * (s * f) := by nlinarith [hkey, hs]
      exact le_trans hhigh h3

theorem dense_step_nil (tm : TimeMemory) (info : Info) (hD : DInv tm)
    (hnil : tm.infos = []) :
    DInv (append_info tm info false).1 ∧
    (append_info tm info false).1.infos.head? = some info := by
  obtain ⟨hs, _, _⟩ := hD
  have hfuel : info.mono + 2 = (info.mono + 1) + 1 := rfl
  rw [append_info, hfuel, appendInfoFuel_succ]
  simp only [hnil]
  exact ⟨⟨hs, by simp [MAX_INFOS],
    Or.inr ⟨info, [], 0, 0, rfl, by simp [progression], by omega, Or.inl rfl⟩⟩, rfl⟩

theorem dense_step_cons (tm : TimeMemory) (info x : Info) (xs : List Info)
    (hD : DInv tm) (hinf : tm.infos = x :: xs) (hm : info.mono = x.mono + 1) :
    DInv (append_info tm info false).1 ∧
    (append_info tm info false).1.infos.head? = some info := by
  obtain ⟨hs, hlen, hshape⟩ := hD
  rcases hshape with hnil | ⟨x', xs', q, k, hx', hprog, hk, hhead⟩
  · rw [hinf] at hnil; exact absurd hnil (by simp)
  rw [hinf] at hx'
  obtain ⟨rfl, rfl⟩ : x = x' ∧ xs = xs' := by
    injection hx' with h1 h2; exact ⟨h1, h2⟩
  have hxlen : xs.length = k := by
    have := congrArg List.length hprog
    simpa [prog_length] using this
  rw [hinf] at hlen
  have hlen6 : xs.length + 1 ≤ MAX_INFOS := by simpa using hlen
  have hfuel : info.mono + 2 = (info.mono + 1) + 1 := rfl
  rw [append_info, hfuel, append_nohole (info.mono + 1) tm info false x xs hinf hm]
  by_cases hmod : x.mono % tm.info_secs = 0
  · -- insert situation
    rw [if_neg (by simp [hmod])]
    obtain ⟨q', hprog', hk', hlow', hhigh'⟩ :
        ∃ q', (x :: xs).map Info.mono = progression q' (k+1) tm.info_secs ∧
          k + 1 ≤ q' + 1 ∧ q' * tm.info_secs < info.mono ∧
          info.mono ≤ (q' + 1) * tm.info_secs := by
      have hdvd : tm.info_secs ∣ x.mono := Nat.dvd_of_mod_eq_zero hmod
      rcases hhead with hk0 | ⟨hl, hh⟩
      · subst hk0
        have hxs : xs = [] := by
          have : xs.map Info.mono = [] := by simpa [progression] using hprog
          simpa using this
        subst hxs
        have hxm : x.mono / tm.info_secs * tm.info_secs = x.mono :=
          Nat.div_mul_cancel hdvd
        refine ⟨x.mono / tm.info_secs, ?_, Nat.succ_le_succ (Nat.zero_le _), by rw [hxm]; omega, ?_⟩
        · simp [progression, List.range_succ, hxm]
        · have : (x.mono / tm.info_secs + 1) * tm.info_secs
              = x.mono / tm.info_secs * tm.info_secs + tm.info_secs := by ring
          omega
      · have hxeq : x.mono = (q + 1) * tm.info_secs := by
          obtain ⟨c, hc⟩ := hdvd
          have h1 : q < c := by
            by_contra hcon
            push_neg at hcon
            have : tm.info_secs * c ≤ tm.info_secs * q := Nat.mul_le_mul_left _ hcon
            nlinarith [hl]
          have h2 : c ≤ q + 1 := by
            by_contra hcon
            push_neg at hcon
            have : tm.info_secs * (q + 2) ≤ tm.info_secs * c :=
              Nat.mul_le_mul_left _ (by omega)
            nlinarith [hh]
          have hc2 : c = q + 1 := by omega
          rw [hc, hc2]; ring
        refine ⟨q + 1, ?_, by omega, ?_, ?_⟩
        · rw [prog_shift, List.map_cons, hprog, hxeq]
        · omega
        · have : (q + 1 + 1) * tm.info_secs
              = (q + 1) * tm.info_secs + tm.info_secs := by ring
          omega
    set c : Int := (info.mono : Int) - (RETENTION_SEC : Int) with hc
    have hlen601 : (info :: x :: xs).length ≤ MAX_INFOS + 1 := by
      simp only [List.length_cons]
      omega
    obtain ⟨t, K, hpr, hprog_t, hK_le, hK600⟩ :
        ∃ t K, pruneInfos c (info :: x :: xs) = info :: t ∧
          t.map Info.mono = progression q' K tm.info_secs ∧
          K ≤ q' + 1 ∧ K ≤ MAX_INFOS := by
      rcases pruneInfos_small c (info :: x :: xs) hlen601 with hpr | hpr
      · exact ⟨x :: xs, k + 1, hpr, hprog', hk', by omega⟩
      · refine ⟨(x :: xs).dropLast, k, ?_, ?_, by omega, by omega⟩
        · rw [hpr, List.dropLast_cons₂]
        · rw [map_mono_dropLast, hprog', prog_dropLast]
          simp
    rw [hpr]
    split
    · -- compression fires
      have hcd := compress_DInv { tm with infos := info :: t, state := "grow" }
        info t q' K hs rfl hprog_t hK_le hK600 hlow' hhigh'
      exact ⟨hcd.1, hcd.2⟩
    · -- within capacity after pruning
      rename_i hfire
      simp only [Bool.or_false, decide_eq_true_eq, not_lt] at hfire
      exact ⟨⟨hs, hfire,
        Or.inr ⟨info, t, q', K, rfl, hprog_t, hK_le, Or.inr ⟨hlow', hhigh'⟩⟩⟩, rfl⟩
  · -- overwrite situation
    rw [if_pos (by simp [hmod])]
    refine ⟨⟨hs, by simpa using hlen6, Or.inr ⟨info, xs, q, k, rfl, hprog, hk, ?_⟩⟩, rfl⟩
    show k = 0 ∨ (q * tm.info_secs < info.mono ∧ info.mono ≤ (q + 1) * tm.info_secs)
    rcases hhead with hk0 | ⟨hl, hh⟩
    · exact Or.inl hk0
    · refine Or.inr ⟨by omega, ?_⟩
      have hne : x.mono ≠ (q + 1) * tm.info_secs := by
        intro he; rw [he] at hmod; exact hmod (Nat.mul_mod_left _ _)
      omega

theorem runDense_succ (t0 n : Nat) (d : Nat → Nat) :
    runDense t0 (n+1) d =
      (append_info (runDense t0 n d) { mono := t0 + n, data := d n } false).1 := by
  unfold runDense
  rw [List.range_succ, List.foldl_append, List.foldl_cons, List.foldl_nil]

theorem runDense_DInv (t0 : Nat) (d : Nat → Nat) :
    ∀ n, DInv (runDense t0 n d) ∧
      (n = 0 ∨ (runDense t0 n d).infos.head? =
        some { mono := t0 + (n-1), data := d (n-1) }) := by
  intro n
  induction n with
  | zero =>
    refine ⟨⟨le_refl 1, by simp [runDense, TimeMemory.init, MAX_INFOS], Or.inl ?_⟩,
      Or.inl rfl⟩
    simp [runDense, TimeMemory.init]
  | succ n ih =>
    obtain ⟨hD, hhd⟩ := ih
    rw [runDense_succ]
    rcases hhd with h0 | hhd
    · subst h0
      have hnil : (runDense t0 0 d).infos = [] := by simp [runDense, TimeMemory.init]
      have hstep := dense_step_nil (runDense t0 0 d)
        { mono := t0 + 0, data := d 0 } hD hnil
      exact ⟨hstep.1, Or.inr (by rw [hstep.2])⟩
    · have hnz : n ≠ 0 := by
        intro h
        subst h
        simp [runDense, TimeMemory.init] at hhd
      obtain ⟨xs, hcons⟩ : ∃ xs, (runDense t0 n d).infos =
          { mono := t0 + (n-1), data := d (n-1) } :: xs := by
        cases hinfos : (runDense t0 n d).infos with
        | nil => rw [hinfos] at hhd; simp at hhd
        | cons a l =>
          rw [hinfos] at hhd
          simp only [List.head?_cons, Option.some.injEq] at hhd
          exact ⟨l, by rw [hhd]⟩
      have hstep := dense_step_cons (runDense t0 n d)
        { mono := t0 + n, data := d n } _ xs hD hcons (by simp; omega)
      exact ⟨hstep.1, Or.inr (by rw [hstep.2]; simp)⟩

theorem prog_mono_getD (xs : List Info) (q k s : Nat)
    (h : xs.map Info.mono = progression q k s) (j : Nat) (hj : j < k) :
    (xs.getD j default).mono = (q - j) * s := by
  have hlen : xs.length = k := by
    have := congrArg List.length h
    simpa [prog_length] using this
  have hjx : j < xs.length := by omega
  rw [List.getD_eq_getElem xs default hjx]
  have h1 : (xs.map Info.mono)[j]? = some (xs[j].mono) := by
    rw [List.getElem?_eq_getElem (by simpa using hjx)]
    simp
  have h2 : (progression q k s)[j]? = some ((q - j) * s) := by
    rw [List.getElem?_eq_getElem (by rw [prog_length]; omega)]
    simp [progression]
  have h3 : (xs.map Info.mono)[j]? = (progression q k s)[j]? := by rw [h]
  rw [h1, h2] at h3
  simpa using h3

/-- C1 (amended): for append sequences whose time keys advance by exactly
one second from an empty store with quantum 1, after each append the
stored time keys at indices 1 and beyond differ by exactly the current
quantum, while the newest pair (indices 0 and 1) differs by at least one
and at most the current quantum. -/
theorem C1_dense_spacing (t0 n : Nat) (d : Nat → Nat) :
    (∀ i, 1 ≤ i → i + 2 ≤ (runDense t0 n d).infos.length →
       ((runDense t0 n d).infos.getD i default).mono
         = ((runDense t0 n d).infos.getD (i+1) default).mono
           + (runDense t0 n d).info_secs) ∧
    (2 ≤ (runDense t0 n d).infos.length →
       ((runDense t0 n d).infos.getD 1 default).mono
         < ((runDense t0 n d).infos.getD 0 default).mono ∧
       ((runDense t0 n d).infos.getD 0 default).mono
         ≤ ((runDense t0 n d).infos.getD 1 default).mono
           + (runDense t0 n d).info_secs) := by
  obtain ⟨⟨hs, hlen, hshape⟩, _⟩ := runDense_DInv t0 d n
  set tm := runDense t0 n d
  rcases hshape with hnil | ⟨x, xs, q, k, hinf, hprog, hk, hhead⟩
  · rw [hnil]
    constructor
    · intro i h1 h2; simp at h2
    · intro h2; simp at h2
  · rw [hinf]
    have hxlen : xs.length = k := by
      have := congrArg List.length hprog
      simpa [prog_length] using this
    constructor
    · intro i h1 h2
      cases i with
      | zero => omega
      | succ j =>
        simp only [List.getD_cons_succ]
        simp only [List.length_cons] at h2
        rw [prog_mono_getD xs q k tm.info_secs hprog j (by omega),
            prog_mono_getD xs q k tm.info_secs hprog (j+1) (by omega)]
        have hjq : j + 1 ≤ q := by omega
        have hq : q - j = (q - (j+1)) + 1 := by omega
        rw [hq, Nat.succ_mul]
    · intro h2
      simp only [List.length_cons] at h2
      have hk1 : 1 ≤ k := by omega
      rcases hhead with hk0 | ⟨hl, hh⟩
      · omega
      · simp only [List.getD_cons_succ, List.getD_cons_zero]
        rw [prog_mono_getD xs q k tm.info_secs hprog 0 (by omega)]
        have hqe : (q + 1) * tm.info_secs = q * tm.info_secs + tm.info_secs := by ring
        simp only [Nat.sub_zero]
        omega

theorem C1_dense_spacing_witness :
    1 ≤ 1 ∧ 1 + 2 ≤ (runDense 0 5 (fun _ => 0)).infos.length ∧
    ((runDense 0 5 (fun _ => 0)).infos.getD 1 default).mono
      = ((runDense 0 5 (fun _ => 0)).infos.getD 2 default).mono
        + (runDense 0 5 (fun _ => 0)).info_secs ∧
    2 ≤ (runDense 0 5 (fun _ => 0)).infos.length ∧
    ((runDense 0 5 (fun _ => 0)).infos.getD 1 default).mono
      < ((runDense 0 5 (fun _ => 0)).infos.getD 0 default).mono := by
  refine ⟨by decide, by decide,
    (C1_dense_spacing 0 5 (fun _ => 0)).1 1 (by decide) (by decide), by decide,
    ((C1_dense_spacing 0 5 (fun _ => 0)).2 (by decide)).1⟩

/-- C4 (amended): the capacity bound len(series) <= MAX_SAMPLES does hold
after every append for runs whose time keys advance by exactly one second
from the empty store with quantum 1 (the strictly-increasing counterexample
run with gaps is what defeats the general claim). -/
theorem C4_dense_bounded (t0 n : Nat) (d : Nat → Nat) :
    (runDense t0 n d).infos.length ≤ MAX_INFOS :=
  ((runDense_DInv t0 d n).1).2.1

theorem pruneFuel_min (fu : Nat) (c : Int) :
    ∀ (n : Nat) (l : List Info), n = l.length →
      min n MAX_INFOS ≤ (pruneFuel fu c n l).length := by
  induction fu with
  | zero =>
    intro n l hn
    simp only [pruneFuel]
    omega
  | succ fu ih =>
    intro n l hn
    unfold pruneFuel
    by_cases h6 : MAX_INFOS < n
    · rw [if_pos h6]
      cases hz : l.getLast? with
      | none => dsimp only; omega
      | some z =>
        dsimp only
        by_cases hc : c ≤ (z.mono : Int)
        · rw [if_pos hc]; omega
        · rw [if_neg hc]
          have hlen : n - 1 = l.dropLast.length := by
            rw [List.length_dropLast]; omega
          have := ih (n - 1) l.dropLast hlen
          omega
    · rw [if_neg h6]; omega

theorem pruneInfos_cons (c : Int) (a : Info) (t : List Info) :
    ∃ u, pruneInfos c (a :: t) = a :: u ∧ ∀ y ∈ u, y ∈ t := by
  obtain ⟨j, hj⟩ := pruneInfos_take c (a :: t)
  have hmin : min (a :: t).length MAX_INFOS ≤ (pruneInfos c (a :: t)).length :=
    pruneFuel_min (a :: t).length c (a :: t).length (a :: t) rfl
  cases j with
  | zero =>
    rw [hj] at hmin
    simp only [List.take_zero, List.length_nil, List.length_cons] at hmin
    have hM : MAX_INFOS = 600 := rfl
    omega
  | succ j =>
    refine ⟨t.take j, ?_, ?_⟩
    · rw [hj, List.take_succ_cons]
    · intro y hy; exact List.mem_of_mem_take hy

theorem nohole_INVm (F : Nat) (tm : TimeMemory) (info x : Info) (xs : List Info)
    (force : Bool) (hinf : tm.infos = x :: xs) (hm : info.mono = x.mono + 1)
    (hs : 1 ≤ tm.info_secs) (htail : ∀ y ∈ xs, y.mono % tm.info_secs = 0) :
    1 ≤ (appendInfoFuel (F+1) tm info force).1.info_secs ∧
    (∀ y ∈ (appendInfoFuel (F+1) tm info force).1.infos.tail,
        y.mono % (appendInfoFuel (F+1) tm info force).1.info_secs = 0) ∧
    (appendInfoFuel (F+1) tm info force).1.infos.head? = some info := by
  rw [append_nohole F tm info force x xs hinf hm]
  by_cases hmod : x.mono % tm.info_secs = 0
  · rw [if_neg (by simp [hmod])]
    obtain ⟨u, hu, husub⟩ :=
      pruneInfos_cons ((info.mono : Int) - (RETENTION_SEC : Int)) info (x :: xs)
    rw [hu]
    have humult : ∀ y ∈ u, y.mono % tm.info_secs = 0 := by
      intro y hy
      rcases List.mem_cons.mp (husub y hy) with h1 | h2
      · rw [h1]; exact hmod
      · exact htail y h2
    split
    · -- compression fires
      rw [compressStep_eq _ info u rfl]
      refine ⟨?_, ?_, rfl⟩
      · exact Nat.mul_pos hs (lt_of_lt_of_le (by omega) (mult_ge_two tm.comp_idx))
      · intro y hy
        simp only [List.tail_cons] at hy
        have := List.of_mem_filter hy
        simpa using this
    · -- no compression
      refine ⟨hs, ?_, rfl⟩
      intro y hy
      simp only [List.tail_cons] at hy
      exact humult y hy
  · rw [if_pos (by simp [hmod])]
    refine ⟨hs, ?_, rfl⟩
    intro y hy
    simp only [List.tail_cons] at hy
    exact htail y hy

theorem holeFold_INVm (F : Nat) (info : Info) :
    ∀ (g : Nat) (tm : TimeMemory) (topM : Nat),
      1 ≤ tm.info_secs →
      (∀ y ∈ tm.infos.tail, y.mono % tm.info_secs = 0) →
      (∃ h rest, tm.infos = h :: rest ∧ h.mono = topM) →
      1 ≤ ((List.range g).foldl (fun q _ => holeStep (F+1) info q) (tm, topM)).1.info_secs ∧
      (∀ y ∈ ((List.range g).foldl (fun q _ =>
          holeStep (F+1) info q) (tm, topM)).1.infos.tail,
        y.mono % ((List.range g).foldl (fun q _ =>
          holeStep (F+1) info q) (tm, topM)).1.info_secs = 0) ∧
      (∃ h rest, ((List.range g).foldl (fun q _ =>
          holeStep (F+1) info q) (tm, topM)).1.infos = h :: rest ∧
        h.mono = ((List.range g).foldl (fun q _ =>
          holeStep (F+1) info q) (tm, topM)).2) := by
  intro g
  induction g with
  | zero =>
    intro tm topM h1 h2 h3
    simp only [List.range_zero, List.foldl_nil]
    exact ⟨h1, h2, h3⟩
  | succ g ih =>
    intro tm topM h1 h2 h3
    rw [List.range_succ, List.foldl_append, List.foldl_cons, List.foldl_nil]
    obtain ⟨hp1, hp2, h, rest, hpr, hpm⟩ := ih tm topM h1 h2 h3
    set p := (List.range g).foldl (fun q _ => holeStep (F+1) info q) (tm, topM) with hpdef
    unfold holeStep
    by_cases hb : (p.2 + 1) % p.1.info_secs ≠ 0
    · rw [if_pos hb]
      refine ⟨hp1, ?_, ?_⟩
      · rw [hpr]
        dsimp only
        intro y hy
        simp only [List.tail_cons] at hy
        have := hp2 y (by rw [hpr]; simpa using hy)
        exact this
      · refine ⟨{ h with mono := p.2 + 1 }, rest, ?_, rfl⟩
        rw [hpr]
    · rw [if_neg hb]
      push_neg at hb
      have hrest : ∀ y ∈ rest, y.mono % p.1.info_secs = 0 := by
        intro y hy
        exact hp2 y (by rw [hpr]; simpa using hy)
      have hstep := nohole_INVm F { p.1 with state := "hole-" }
        (fakeInfo info (p.2 + 1)) h rest false (by simpa using hpr)
        (by simp [fakeInfo]; omega) hp1 hrest
      obtain ⟨i1, i2, i3⟩ := hstep
      refine ⟨i1, i2, ?_⟩
      obtain ⟨l, hl⟩ : ∃ l,
          (appendInfoFuel (F+1) { p.1 with state := "hole-" }
            (fakeInfo info (p.2 + 1)) false).1.infos = fakeInfo info (p.2 + 1) :: l := by
        cases hil : (appendInfoFuel (F+1) { p.1 with state := "hole-" }
            (fakeInfo info (p.2 + 1)) false).1.infos with
        | nil => rw [hil] at i3; simp at i3
        | cons a l =>
          rw [hil] at i3
          simp only [List.head?_cons, Option.some.injEq] at i3
          exact ⟨l, by rw [i3]⟩
      exact ⟨fakeInfo info (p.2 + 1), l, hl, rfl⟩

theorem append_INVm (F : Nat) (tm : TimeMemory) (info : Info) (force : Bool)
    (hs : 1 ≤ tm.info_secs)
    (htail : ∀ y ∈ tm.infos.tail, y.mono % tm.info_secs = 0) :
    1 ≤ (appendInfoFuel (F+2) tm info force).1.info_secs ∧
    ∀ y ∈ (appendInfoFuel (F+2) tm info force).1.infos.tail,
      y.mono % (appendInfoFuel (F+2) tm info force).1.info_secs = 0 := by
  have hsucc : F + 2 = (F + 1) + 1 := rfl
  rw [hsucc, appendInfoFuel_succ]
  cases hinfos : tm.infos with
  | nil =>
    dsimp only
    exact ⟨hs, by simp⟩
  | cons top rest =>
    have htail' : ∀ y ∈ rest, y.mono % tm.info_secs = 0 := by
      intro y hy
      exact htail y (by rw [hinfos]; simpa using hy)
    dsimp only
    by_cases hlt : info.mono < top.mono
    · rw [if_pos hlt]
      refine ⟨hs, ?_⟩
      intro y hy
      dsimp only at hy
      exact htail' y (by simpa using hy)
    · by_cases heq : info.mono = top.mono
      · rw [if_neg hlt, if_pos heq]
        refine ⟨hs, ?_⟩
        intro y hy
        simp only [List.tail_cons] at hy
        exact htail' y hy
      · rw [if_neg hlt, if_neg heq]
        have hfold := holeFold_INVm F info (info.mono - (top.mono + 1)) tm top.mono hs
          (by rw [hinfos]; simpa using htail') ⟨top, rest, hinfos, rfl⟩
        obtain ⟨hp1, hp2, h, r, hpr, hpm⟩ := hfold
        set p := (List.range (info.mono - (top.mono + 1))).foldl
          (fun q _ => holeStep (F+1) info q) (tm, top.mono) with hpdef
        by_cases hmod : p.2 % p.1.info_secs ≠ 0
        · rw [if_pos hmod]
          refine ⟨hp1, ?_⟩
          intro y hy
          dsimp only at hy
          rw [hpr] at hy
          simp only [List.tail_cons] at hy
          exact hp2 y (by rw [hpr]; simpa using hy)
        · rw [if_neg hmod]
          push_neg at hmod
          obtain ⟨u, hu, husub⟩ :=
            pruneInfos_cons ((info.mono : Int) - (RETENTION_SEC : Int)) info p.1.infos
          have humult : ∀ y ∈ u, y.mono % p.1.info_secs = 0 := by
            intro y hy
            have hmem := husub y hy
            rw [hpr] at hmem
            rcases List.mem_cons.mp hmem with h1 | h2
            · rw [h1, hpm]; exact hmod
            · exact hp2 y (by rw [hpr]; simpa using h2)
          rw [hu]
          split
          · rw [compressStep_eq _ info u rfl]
            refine ⟨?_, ?_⟩
            · exact Nat.mul_pos hp1
                (lt_of_lt_of_le (by omega) (mult_ge_two p.1.comp_idx))
            · intro y hy
              simp only [List.tail_cons] at hy
              have := List.of_mem_filter hy
              simpa using this
          · refine ⟨hp1, ?_⟩
            intro y hy
            simp only [List.tail_cons] at hy
            exact humult y hy

theorem runFrom_INVm (script : List (Info × Bool)) :
    ∀ tm : TimeMemory, 1 ≤ tm.info_secs →
      (∀ y ∈ tm.infos.tail, y.mono % tm.info_secs = 0) →
      1 ≤ (runFrom tm script).info_secs ∧
      ∀ y ∈ (runFrom tm script).infos.tail,
        y.mono % (runFrom tm script).info_secs = 0 := by
  induction script with
  | nil =>
    intro tm h1 h2
    exact ⟨h1, h2⟩
  | cons ib rest ih =>
    intro tm h1 h2
    have hstep := append_INVm ib.1.mono tm ib.1 ib.2 h1 h2
    simp only [runFrom, List.foldl_cons]
    exact ih _ hstep.1 hstep.2

/-- C10: (a) after every append_info call in a run from an initial store
with a positive quantum, every stored sample except the newest (index 0)
has a time key that is an exact multiple of the current quantum; (b) in a
gap-free append below capacity a new element is inserted exactly when the
previous top time key is such a multiple, and otherwise slot 0 is
overwritten in place; (c) when compression fires on such an append it
retains the newest element plus exactly those older elements whose time
keys are multiples of the enlarged quantum. -/
theorem C10_alignment :
    (∀ (s : Nat) (script : List (Info × Bool)), 1 ≤ s →
      ∀ y ∈ (runScript s script).infos.tail,
        y.mono % (runScript s script).info_secs = 0) ∧
    (∀ (tm : TimeMemory) (info x : Info) (xs : List Info),
      tm.infos = x :: xs → info.mono = x.mono + 1 →
      tm.infos.length < MAX_INFOS →
      ((x.mono % tm.info_secs ≠ 0 →
          (append_info tm info false).1.infos = info :: xs) ∧
       (x.mono % tm.info_secs = 0 →
          (append_info tm info false).1.infos = info :: x :: xs))) ∧
    (∀ (tm : TimeMemory) (info x : Info) (xs : List Info),
      tm.infos = x :: xs → info.mono = x.mono + 1 →
      tm.infos.length < MAX_INFOS → x.mono % tm.info_secs = 0 →
      (append_info tm info true).1.infos =
        info :: (x :: xs).filter (fun y =>
          y.mono % (tm.info_secs * COMPRESSION_MULTIPLIERS.getD
            (tm.comp_idx % COMPRESSION_MULTIPLIERS.length) 0) == 0) ∧
      (append_info tm info true).1.info_secs =
        tm.info_secs * COMPRESSION_MULTIPLIERS.getD
          (tm.comp_idx % COMPRESSION_MULTIPLIERS.length) 0) := by
  refine ⟨?_, ?_, ?_⟩
  · intro s script hs
    have := runFrom_INVm script (TimeMemory.init s) (by simpa [TimeMemory.init] using hs)
      (by simp [TimeMemory.init])
    rw [runScript_eq_runFrom]
    exact this.2
  · intro tm info x xs hinf hm hlen
    have hfuel : info.mono + 2 = (info.mono + 1) + 1 := rfl
    rw [append_info, hfuel, append_nohole (info.mono + 1) tm info false x xs hinf hm]
    constructor
    · intro hmod
      rw [if_pos (by simp [hmod])]
    · intro hmod
      rw [if_neg (by simp [hmod])]
      rw [hinf] at hlen
      simp only [List.length_cons] at hlen
      have hpr : pruneInfos ((info.mono : Int) - (RETENTION_SEC : Int)) (info :: x :: xs)
          = info :: x :: xs :=
        pruneInfos_of_le _ _ (by simp only [List.length_cons]; omega)
      rw [hpr]
      rw [if_neg (by simp only [Bool.or_false, decide_eq_true_eq, not_lt,
        List.length_cons]; omega)]
  · intro tm info x xs hinf hm hlen hmod
    have hfuel : info.mono + 2 = (info.mono + 1) + 1 := rfl
    rw [append_info, hfuel, append_nohole (info.mono + 1) tm info true x xs hinf hm]
    rw [if_neg (by simp [hmod])]
    rw [hinf] at hlen
    simp only [List.length_cons] at hlen
    have hpr : pruneInfos ((info.mono : Int) - (RETENTION_SEC : Int)) (info :: x :: xs)
        = info :: x :: xs :=
      pruneInfos_of_le _ _ (by simp only [List.length_cons]; omega)
    rw [hpr]
    rw [if_pos (by simp)]
    rw [compressStep_eq _ info (x :: xs) rfl]
    exact ⟨rfl, rfl⟩

theorem C10_alignment_witness :
    1 ≤ 1 ∧
    (Info.mk 5 0) ∈ (runScript 1 [(Info.mk 5 0, false), (Info.mk 6 1, false)]).infos.tail ∧
    (Info.mk 5 0).mono %
      (runScript 1 [(Info.mk 5 0, false), (Info.mk 6 1, false)]).info_secs = 0 ∧
    (append_info (TimeMemory.mk [Info.mk 3 7, Info.mk 2 5] 2 0 "s") (Info.mk 4 9)
      false).1.infos = [Info.mk 4 9, Info.mk 2 5] ∧
    (append_info (TimeMemory.mk [Info.mk 4 7, Info.mk 2 5] 2 0 "s") (Info.mk 5 9)
      false).1.infos = [Info.mk 5 9, Info.mk 4 7, Info.mk 2 5] ∧
    (append_info (TimeMemory.mk [Info.mk 4 7, Info.mk 2 5] 2 0 "s") (Info.mk 5 9)
      true).1.infos = [Info.mk 5 9] ∧
    (append_info (TimeMemory.mk [Info.mk 4 7, Info.mk 2 5] 2 0 "s") (Info.mk 5 9)
      true).1.info_secs = 10 := by
  refine ⟨by decide, by decide,
    C10_alignment.1 1 [(Info.mk 5 0, false), (Info.mk 6 1, false)] (by decide)
      (Info.mk 5 0) (by decide),
    (C10_alignment.2.1 (TimeMemory.mk [Info.mk 3 7, Info.mk 2 5] 2 0 "s") (Info.mk 4 9)
      (Info.mk 3 7) [Info.mk 2 5] rfl (by decide) (by decide)).1 (by decide),
    (C10_alignment.2.1 (TimeMemory.mk [Info.mk 4 7, Info.mk 2 5] 2 0 "s") (Info.mk 5 9)
      (Info.mk 4 7) [Info.mk 2 5] rfl (by decide) (by decide)).2 (by decide),
    ((C10_alignment.2.2 (TimeMemory.mk [Info.mk 4 7, Info.mk 2 5] 2 0 "s") (Info.mk 5 9)
      (Info.mk 4 7) [Info.mk 2 5] rfl (by decide) (by decide) (by decide)).1).trans
      (by decide),
    ((C10_alignment.2.2 (TimeMemory.mk [Info.mk 4 7, Info.mk 2 5] 2 0 "s") (Info.mk 5 9)
      (Info.mk 4 7) [Info.mk 2 5] rfl (by decide) (by decide) (by decide)).2).trans
      (by decide)⟩
